import Mathlib

/-!
# mixfix: the `mix.lock` line rewriter

A shallow embedding of `src/mixfix.go` and a verification of its
specification.

Go strings are byte sequences: a `string` is modelled as `List Byte`.
The standard-library functions the program calls (`strings.Split`,
`strings.Contains`, `strings.Join`, `ioutil.ReadFile`, `ioutil.WriteFile`,
`log.Fatalln`) are modelled after their documented behaviour; `main` is
translated statement by statement.
-/

namespace Mixfix

/-- One byte of a Go `string`. -/
abbrev Byte := UInt8

/-- A Go `string`: a finite sequence of bytes. -/
abbrev Str := List Byte

/-- The bytes of a Go string literal: its UTF-8 encoding. -/
def bytes (s : String) : Str :=
  s.data.flatMap String.utf8EncodeChar

/-- The separator `"\n"` of `main` (a single byte). -/
def newline : Byte := 10

/-! ## The `strings` package -/

/-- `strings.HasPrefix(s, prefix)`: whether `s` begins with `pre`. -/
def HasPrefix : Str → Str → Bool
  | _, [] => true
  | [], _ :: _ => false
  | c :: s, d :: pre => c == d && HasPrefix s pre

/-- `strings.Contains(s, substr)`: whether `substr` is within `s`, that is
whether `substr` is a prefix of `s` at some offset. -/
def Contains : Str → Str → Bool
  | [], substr => HasPrefix [] substr
  | c :: s, substr => HasPrefix (c :: s) substr || Contains s substr

/-- `strings.Split(s, sep)` for a one-byte separator `sep`: the substrings of
`s` between the occurrences of `sep`, in order. The result is never empty: a
string without `sep` gives the one-element slice holding `s`. -/
def Split : Str → Byte → List Str
  | [], _ => [[]]
  | c :: s, sep =>
    if c = sep then [] :: Split s sep
    else
      match Split s sep with
      | [] => [[c]]
      | first :: rest => (c :: first) :: rest

/-- `strings.Join(elems, sep)`: the elements concatenated, with `sep` placed
between them (not after the last). -/
def Join : List Str → Str → Str
  | [], _ => []
  | [a], _ => a
  | a :: b :: rest, sep => a ++ sep ++ Join (b :: rest) sep

/-! ## The constants of `main`

The four literals are those of the source, byte for byte; the braces are
written as the escapes `\x7b` and `\x7d`. -/

/-- The literal `search1` of `main`. -/
def search1 : Str := bytes "\"ex_abi\": \x7b:hex, :ex_abi, \"0.6.0\", \"8cf1fef9490dea0834bc201d399635e72178df05dea87b1c933478762dede142\", [:mix], [\x7b:ex_keccak, \"~> 0.7.1\", [hex: :ex_keccak, repo: \"hexpm\", optional: false]\x7d, \x7b:jason, \"~> 1.4\", [hex: :jason, repo: \"hexpm\", optional: false]\x7d], \"hexpm\", \"b03e5fe07371db3ceceb2d536cc32658dcba47b79952469e3e71d7690495e8d8\"\x7d,"

/-- The literal `replace1` of `main`. -/
def replace1 : Str := bytes "  \"ex_abi\": \x7b:hex, :ex_abi, \"0.5.16\", \"735f14937bc3c8fd53c38f02936ef8bf93d26a0b999cb0230b105d901530acaf\", [:mix], [\x7b:ex_keccak, \"~> 0.6.0\", [hex: :ex_keccak, repo: \"hexpm\", optional: false]\x7d, \x7b:jason, \"~> 1.4\", [hex: :jason, repo: \"hexpm\", optional: false]\x7d], \"hexpm\", \"82ee815f438c5d29ddc3e151a23a9eb5e906f3472cc6f5005b6f5a7f37332efe\"\x7d,"

/-- The literal `search2` of `main`. -/
def search2 : Str := bytes "\"ex_keccak\": \x7b:hex, :ex_keccak, \"0.7.1\", \"0169f4b0c5073c5df61581d6282b12f1a1b764dcfcda4eeb1c819b5194c9ced0\", [:mix], [\x7b:rustler, \">= 0.0.0\", [hex: :rustler, repo: \"hexpm\", optional: true]\x7d, \x7b:rustler_precompiled, \"~> 0.6.1\", [hex: :rustler_precompiled, repo: \"hexpm\", optional: false]\x7d], \"hexpm\", \"c18c19f66b6545b4b46b0c71c0cc0079de84e30b26365a92961e91697e8724ed\"\x7d,"

/-- The literal `replace2` of `main`. -/
def replace2 : Str := bytes "  \"ex_keccak\": \x7b:hex, :ex_keccak, \"0.6.0\", \"0e1f8974dd6630dd4fb0b64f9eabbceeffb9675da3ab95dea653798365802cf4\", [:mix], [\x7b:rustler, \"~> 0.26\", [hex: :rustler, repo: \"hexpm\", optional: false]\x7d], \"hexpm\", \"84b20cfe6a063edab311b2c8ff8b221698c84cbd5fbdba059e51636540142538\"\x7d,"

/-! ## The rewriting loop of `main` -/

/-- One iteration of `for i, line := range lines`: `line` is `lines[i]`, and
the assignment `lines[i] = ...` updates the slice in place. -/
def loopBody (lines : List Str) (i : Nat) : List Str :=
  let line := lines.getD i []
  if Contains line search1 then
    lines.set i replace1
  else if Contains line search2 then
    lines.set i replace2
  else
    lines

/-- The whole loop `for i, line := range lines`: the body is run for
`i = 0, 1, ..., len(lines) - 1`, the length being taken once at the start. -/
def rewriteLoop (lines : List Str) : List Str :=
  (List.range lines.length).foldl loopBody lines

/-- The pure part of `main`, from the content read to the content written:
split on `"\n"`, run the loop, join with `"\n"`. -/
def rewrite (input : Str) : Str :=
  let lines := Split input newline
  let lines := rewriteLoop lines
  Join lines [newline]

/-- What the loop does to a single line, as the specification words it: the
first matching rule replaces the whole line. -/
def rewriteLine (line : Str) : Str :=
  if Contains line search1 then replace1
  else if Contains line search2 then replace2
  else line

/-! ## The file system and the two I/O calls -/

/-- The errors `ioutil.ReadFile` and `ioutil.WriteFile` return. -/
inductive IOError where
  | notExist
  | permission
  | noSpace
  deriving DecidableEq

/-- A regular file: its content, and whether the process may read and write it. -/
structure File where
  content : Str
  readable : Bool
  writable : Bool
  deriving DecidableEq

/-- The state of the file system as the process sees it: which file each
path names (if any), the files by number, whether the working directory admits
new files, how many bytes the storage takes for one file's content, and the
number a newly created file gets. Several paths may name the same file (hard
links, symbolic links, `mix.lock` and `./mix.lock`). -/
structure FS where
  names : String → Option Nat
  files : Nat → File
  creatable : Bool
  capacity : Nat
  fresh : Nat

/-- The content seen at a path: that of the file the path names. -/
def FS.content (fs : FS) (name : String) : Option Str :=
  (fs.names name).map (fun i => (fs.files i).content)

/-- The file system with file number `i` set to `f`. The paths keep naming the
files they named, so every path that names file `i` shows `f`. -/
def FS.put (fs : FS) (i : Nat) (f : File) : FS :=
  { fs with files := fun j => if j = i then f else fs.files j }

/-- The file system with a new path `name` naming the next free file number. -/
def FS.create (fs : FS) (name : String) : FS :=
  { fs with
    names := fun p => if p = name then some fs.fresh else fs.names p,
    fresh := fs.fresh + 1 }

/-- `ioutil.ReadFile(name)`: the whole content of the file that `name` names,
or an error when there is no such file or it may not be read. The file system
is not changed. -/
def ReadFile (fs : FS) (name : String) : Except IOError Str :=
  match fs.names name with
  | none => .error .notExist
  | some i => if (fs.files i).readable then .ok (fs.files i).content else .error .permission

/-- `ioutil.WriteFile(name, data, perm)`: opens `name` for writing, creating
a file with mode `perm` when `name` names none and truncating the named file
otherwise, then writes `data` into that file, in place. A refused open changes
nothing; a write the storage cannot hold leaves the part that fitted and
returns an error. -/
def WriteFile (fs : FS) (name : String) (data : Str) (perm : Nat) : FS × Option IOError :=
  match fs.names name with
  | some i =>
    if (fs.files i).writable then
      if data.length ≤ fs.capacity then
        (fs.put i { fs.files i with content := data }, none)
      else
        (fs.put i { fs.files i with content := data.take fs.capacity }, some .noSpace)
    else
      (fs, some .permission)
  | none =>
    if fs.creatable then
      let f : File := { content := [], readable := perm.testBit 8, writable := perm.testBit 7 }
      if data.length ≤ fs.capacity then
        ((fs.create name).put fs.fresh { f with content := data }, none)
      else
        ((fs.create name).put fs.fresh { f with content := data.take fs.capacity },
          some .noSpace)
    else
      (fs, some .permission)

/-- An I/O call made by the process. -/
inductive Call where
  | read (name : String)
  | write (name : String) (data : Str) (perm : Nat)
  deriving DecidableEq

/-- How a run ends: the file system it leaves, the I/O calls it made in
order, what it logged to the diagnostic output, and its exit status. -/
structure Outcome where
  fs : FS
  calls : List Call
  stderr : List IOError
  exitCode : Nat

/-- `log.Fatalln(err)`: logs `err` and exits with status 1. -/
def Fatalln (fs : FS) (calls : List Call) (err : IOError) : Outcome :=
  { fs := fs, calls := calls, stderr := [err], exitCode := 1 }

/-- The program `main`, run on the file system `fs`. -/
def main (fs : FS) : Outcome :=
  match ReadFile fs "mix.lock" with
  | .error err => Fatalln fs [.read "mix.lock"] err
  | .ok input =>
    let lines := Split input newline
    let lines := rewriteLoop lines
    let output := Join lines [newline]
    match WriteFile fs "mix.lock" output 0o644 with
    | (fs', some err) =>
      Fatalln fs' [.read "mix.lock", .write "mix.lock" output 0o644] err
    | (fs', none) =>
      { fs := fs', calls := [.read "mix.lock", .write "mix.lock" output 0o644],
        stderr := [], exitCode := 0 }

/-! ## Sample inputs -/

/-- A file system in which no path names a file. -/
def emptyFS : FS :=
  { names := fun _ => none,
    files := fun _ => { content := [], readable := false, writable := false },
    creatable := true, capacity := 1000000, fresh := 0 }

/-- A file system whose only path is `mix.lock`, naming a file with the given
content and permissions, on a storage of the given capacity. -/
def lockFS (content : Str) (readable writable : Bool) (capacity : Nat) : FS :=
  { names := fun p => if p = "mix.lock" then some 0 else none,
    files := fun _ => { content := content, readable := readable, writable := writable },
    creatable := true, capacity := capacity, fresh := 1 }

/-- The line of the specification's end-to-end example: `search1` after two
spaces. -/
def sampleLine : Str := bytes "  " ++ search1 ++ []

/-- A lock file with the sample line between unrelated lines, ending in a
newline. -/
def sampleLock : Str :=
  Join ([bytes "%\x7b"] ++ [sampleLine] ++ [bytes "\x7d", []]) [newline]

/-- A file system with two files: file 0 holds the sample lock file and is
named by both `mix.lock` and `other.lock` (a hard link), file 1 is named by
`mix.exs` alone. -/
def linkedFS : FS :=
  { names := fun p =>
      if p = "mix.lock" then some 0
      else if p = "other.lock" then some 0
      else if p = "mix.exs" then some 1
      else none,
    files := fun i =>
      if i = 0 then { content := sampleLock, readable := true, writable := true }
      else { content := bytes "defmodule", readable := true, writable := true },
    creatable := true, capacity := 1000000, fresh := 2 }

/-! ## Facts about `HasPrefix` and `Contains` -/

theorem HasPrefix_iff (s pre : Str) : HasPrefix s pre = true ↔ pre <+: s := by
  induction s generalizing pre with
  | nil =>
    cases pre with
    | nil => simp [HasPrefix]
    | cons d pre => simp [HasPrefix]
  | cons c s ih =>
    cases pre with
    | nil => simp [HasPrefix]
    | cons d pre =>
      simp only [HasPrefix, Bool.and_eq_true, beq_iff_eq, ih, List.cons_prefix_cons]
      constructor
      · rintro ⟨h1, h2⟩; exact ⟨h1.symm, h2⟩
      · rintro ⟨h1, h2⟩; exact ⟨h1.symm, h2⟩

theorem Contains_iff (s substr : Str) : Contains s substr = true ↔ substr <:+: s := by
  induction s with
  | nil =>
    simp only [Contains, HasPrefix_iff, List.infix_nil, List.prefix_nil]
  | cons c s ih =>
    simp only [Contains, Bool.or_eq_true, HasPrefix_iff, ih, List.infix_cons_iff]

theorem Contains_false_iff (s substr : Str) :
    Contains s substr = false ↔ ¬ substr <:+: s := by
  rw [← Contains_iff]; simp

theorem Contains_append (p s q : Str) : Contains (p ++ s ++ q) s = true :=
  (Contains_iff _ _).2 ⟨p, q, rfl⟩

theorem Contains_self (s : Str) : Contains s s = true :=
  (Contains_iff _ _).2 (List.infix_refl s)

theorem Contains_of_part {a b substr : Str} (hab : a <:+: b)
    (h : Contains a substr = true) : Contains b substr = true :=
  (Contains_iff _ _).2 (((Contains_iff _ _).1 h).trans hab)

theorem Contains_false_of_part {a b substr : Str} (hab : a <:+: b)
    (h : Contains b substr = false) : Contains a substr = false := by
  cases hc : Contains a substr with
  | false => rfl
  | true => rw [Contains_of_part hab hc] at h; exact h

/-! ## Facts about `Split` and `Join` -/

theorem Split_ne_nil (s : Str) (sep : Byte) : Split s sep ≠ [] := by
  cases s with
  | nil => simp [Split]
  | cons c s =>
    unfold Split
    split
    · simp
    · split <;> simp

theorem Split_cons_sep (s : Str) (sep : Byte) : Split (sep :: s) sep = [] :: Split s sep := by
  simp [Split]

theorem Split_cons_ne {c sep : Byte} (h : c ≠ sep) (s : Str) :
    ∃ first rest, Split s sep = first :: rest ∧ Split (c :: s) sep = (c :: first) :: rest := by
  cases hs : Split s sep with
  | nil => exact absurd hs (Split_ne_nil s sep)
  | cons first rest =>
    refine ⟨first, rest, rfl, ?_⟩
    rw [Split, if_neg h, hs]

theorem Join_cons_cons (a b : Str) (rest : List Str) (sep : Str) :
    Join (a :: b :: rest) sep = a ++ sep ++ Join (b :: rest) sep := rfl

theorem Join_cons_of_ne_nil (a : Str) {ls : List Str} (h : ls ≠ []) (sep : Str) :
    Join (a :: ls) sep = a ++ sep ++ Join ls sep := by
  cases ls with
  | nil => exact absurd rfl h
  | cons b rest => rfl

theorem Join_cons_head (c : Byte) (first : Str) (rest : List Str) (sep : Str) :
    Join ((c :: first) :: rest) sep = c :: Join (first :: rest) sep := by
  cases rest with
  | nil => rfl
  | cons b rest => simp [Join]

/-- Joining the pieces of a split with the separator gives the string back. -/
theorem Join_Split (s : Str) (sep : Byte) : Join (Split s sep) [sep] = s := by
  induction s with
  | nil => rfl
  | cons c s ih =>
    by_cases h : c = sep
    · subst h
      rw [Split_cons_sep, Join_cons_of_ne_nil _ (Split_ne_nil s c), ih]
      rfl
    · obtain ⟨first, rest, h1, h2⟩ := Split_cons_ne h s
      rw [h2, Join_cons_head, ← h1, ih]

/-- No piece of a split holds the separator. -/
theorem not_mem_of_mem_Split {s : Str} {sep : Byte} {l : Str} (hl : l ∈ Split s sep) :
    sep ∉ l := by
  induction s generalizing l with
  | nil =>
    simp only [Split, List.mem_singleton] at hl
    subst hl; simp
  | cons c s ih =>
    by_cases h : c = sep
    · subst h
      rw [Split_cons_sep, List.mem_cons] at hl
      rcases hl with hl | hl
      · subst hl; simp
      · exact ih hl
    · obtain ⟨first, rest, h1, h2⟩ := Split_cons_ne h s
      rw [h2, List.mem_cons] at hl
      rcases hl with hl | hl
      · subst hl
        have hf : sep ∉ first := ih (by rw [h1]; exact List.mem_cons_self _ _)
        intro hm
        rcases List.mem_cons.1 hm with hm | hm
        · exact h hm.symm
        · exact hf hm
      · exact ih (by rw [h1]; exact List.mem_cons_of_mem _ hl)

/-- A string without the separator splits into itself alone. -/
theorem Split_of_not_mem {s : Str} {sep : Byte} (h : sep ∉ s) : Split s sep = [s] := by
  induction s with
  | nil => rfl
  | cons c s ih =>
    have hc : c ≠ sep := fun e => h (by rw [e]; exact List.mem_cons_self _ _)
    have hs : sep ∉ s := fun e => h (List.mem_cons_of_mem _ e)
    rw [Split, if_neg hc, ih hs]

/-- Splitting `a ++ sep ++ b`, with `a` free of the separator: `a` is the
first piece and the others are the pieces of `b`. -/
theorem Split_append_sep {a : Str} {sep : Byte} (h : sep ∉ a) (b : Str) :
    Split (a ++ sep :: b) sep = a :: Split b sep := by
  induction a with
  | nil => simp [Split]
  | cons c a ih =>
    have hc : c ≠ sep := fun e => h (by rw [e]; exact List.mem_cons_self _ _)
    have hs : sep ∉ a := fun e => h (List.mem_cons_of_mem _ e)
    rw [List.cons_append, Split, if_neg hc, ih hs]

/-- Splitting a join of separator-free lines gives the lines back. -/
theorem Split_Join {ls : List Str} {sep : Byte} (hne : ls ≠ [])
    (h : ∀ l ∈ ls, sep ∉ l) : Split (Join ls [sep]) sep = ls := by
  induction ls with
  | nil => exact absurd rfl hne
  | cons a ls ih =>
    have ha : sep ∉ a := h a (List.mem_cons_self _ _)
    cases ls with
    | nil => exact Split_of_not_mem ha
    | cons b rest =>
      rw [Join_cons_cons, List.append_assoc, List.singleton_append, Split_append_sep ha,
        ih (by simp) (fun l hl => h l (List.mem_cons_of_mem _ hl))]

/-- Splitting distributes over a separator in the middle of the string. -/
theorem Split_append (a b : Str) (sep : Byte) :
    Split (a ++ sep :: b) sep = Split a sep ++ Split b sep := by
  induction a with
  | nil => simp [Split]
  | cons c a ih =>
    by_cases h : c = sep
    · subst h
      rw [List.cons_append, Split_cons_sep, Split_cons_sep, ih, List.cons_append]
    · obtain ⟨first, rest, h1, h2⟩ := Split_cons_ne h a
      obtain ⟨first', rest', h1', h2'⟩ := Split_cons_ne h (a ++ sep :: b)
      rw [List.cons_append, h2', h2]
      rw [ih, h1, List.cons_append] at h1'
      injection h1' with e1 e2
      rw [List.cons_append, e1, e2]

/-- Joining distributes over concatenation of non-empty line sequences. -/
theorem Join_append {xs ys : List Str} (hx : xs ≠ []) (hy : ys ≠ []) (sep : Str) :
    Join (xs ++ ys) sep = Join xs sep ++ sep ++ Join ys sep := by
  induction xs with
  | nil => exact absurd rfl hx
  | cons a xs ih =>
    cases xs with
    | nil => rw [List.singleton_append, Join_cons_of_ne_nil _ hy]; rfl
    | cons b rest =>
      rw [List.cons_append, Join_cons_of_ne_nil _ (by simp), ih (by simp), Join_cons_cons]
      simp [List.append_assoc]

/-- Every piece of a split is a contiguous part of the string. -/
theorem infix_of_mem_Split {s : Str} {sep : Byte} {l : Str} (hl : l ∈ Split s sep) :
    l <:+: s := by
  induction s generalizing l with
  | nil =>
    simp only [Split, List.mem_singleton] at hl
    subst hl; exact List.infix_refl _
  | cons c s ih =>
    by_cases h : c = sep
    · subst h
      rw [Split_cons_sep, List.mem_cons] at hl
      rcases hl with hl | hl
      · subst hl; exact List.nil_infix
      · exact (ih hl).trans (List.infix_cons (List.infix_refl _))
    · obtain ⟨first, rest, h1, h2⟩ := Split_cons_ne h s
      rw [h2, List.mem_cons] at hl
      rcases hl with hl | hl
      · subst hl
        have hs : Join (first :: rest) [sep] = s := by rw [← h1]; exact Join_Split s sep
        cases rest with
        | nil =>
          have hfs : first = s := hs
          rw [hfs]
        | cons b rest =>
          rw [Join_cons_cons] at hs
          refine ⟨[], [sep] ++ Join (b :: rest) [sep], ?_⟩
          rw [← hs]; simp
      · exact (ih (by rw [h1]; exact List.mem_cons_of_mem _ hl)).trans
          (List.infix_cons (List.infix_refl _))

/-! ## The loop is a map over the lines -/

theorem set_getD_self (lines : List Str) (i : Nat) :
    lines.set i (lines.getD i []) = lines := by
  induction lines generalizing i with
  | nil => rfl
  | cons a lines ih =>
    cases i with
    | zero => rfl
    | succ i =>
      have h := ih i
      simp only [List.getD_eq_getElem?_getD] at h
      simp [h]

theorem loopBody_eq_set (lines : List Str) (i : Nat) :
    loopBody lines i = lines.set i (rewriteLine (lines.getD i [])) := by
  unfold loopBody rewriteLine
  dsimp only
  split_ifs with h1 h2
  · rfl
  · rfl
  · exact (set_getD_self lines i).symm

theorem loopBody_cons_succ (a : Str) (lines : List Str) (i : Nat) :
    loopBody (a :: lines) (i + 1) = a :: loopBody lines i := by
  simp [loopBody_eq_set]

theorem foldl_loopBody_cons (a : Str) (is : List Nat) (lines : List Str) :
    is.foldl (fun st i => loopBody st (i + 1)) (a :: lines) = a :: is.foldl loopBody lines := by
  induction is generalizing lines with
  | nil => rfl
  | cons i is ih => rw [List.foldl_cons, List.foldl_cons, loopBody_cons_succ, ih]

/-- The in-place loop of `main` replaces every line by its rewriting. -/
theorem rewriteLoop_eq_map (lines : List Str) : rewriteLoop lines = lines.map rewriteLine := by
  induction lines with
  | nil => rfl
  | cons a lines ih =>
    unfold rewriteLoop at ih ⊢
    rw [List.length_cons, List.range_succ_eq_map, List.foldl_cons, List.foldl_map,
      loopBody_eq_set, List.set_cons_zero, foldl_loopBody_cons, ih]
    simp

theorem rewrite_eq (x : Str) :
    rewrite x = Join ((Split x newline).map rewriteLine) [newline] := by
  unfold rewrite
  dsimp only
  rw [rewriteLoop_eq_map]

/-! ## Facts about the four literals -/

set_option maxRecDepth 100000 in
theorem newline_not_mem_search1 : newline ∉ search1 := by decide

set_option maxRecDepth 100000 in
theorem newline_not_mem_search2 : newline ∉ search2 := by decide

set_option maxRecDepth 100000 in
theorem newline_not_mem_replace1 : newline ∉ replace1 := by decide

set_option maxRecDepth 100000 in
theorem newline_not_mem_replace2 : newline ∉ replace2 := by decide

set_option maxRecDepth 100000 in
theorem search1_ne_nil : search1 ≠ [] := by decide

set_option maxRecDepth 100000 in
theorem search2_ne_nil : search2 ≠ [] := by decide

theorem rewriteLine_nil : rewriteLine [] = [] := by
  have h1 : Contains [] search1 = false :=
    (Contains_false_iff _ _).2 (fun h => search1_ne_nil (List.infix_nil.1 h))
  have h2 : Contains [] search2 = false :=
    (Contains_false_iff _ _).2 (fun h => search2_ne_nil (List.infix_nil.1 h))
  simp [rewriteLine, h1, h2]

theorem newline_not_mem_rewriteLine {line : Str} (h : newline ∉ line) :
    newline ∉ rewriteLine line := by
  unfold rewriteLine
  split
  · exact newline_not_mem_replace1
  · split
    · exact newline_not_mem_replace2
    · exact h

/-- The lines of the rewritten content are the rewritten lines of the input. -/
theorem Split_rewrite (x : Str) :
    Split (rewrite x) newline = (Split x newline).map rewriteLine := by
  rw [rewrite_eq]
  apply Split_Join
  · simpa using Split_ne_nil x newline
  · intro l hl
    obtain ⟨l0, hl0, rfl⟩ := List.mem_map.1 hl
    exact newline_not_mem_rewriteLine (not_mem_of_mem_Split hl0)

theorem rewriteLine_of_not_Contains {line : Str} (h1 : Contains line search1 = false)
    (h2 : Contains line search2 = false) : rewriteLine line = line := by
  simp [rewriteLine, h1, h2]

theorem rewriteLine_of_Contains_search1 {line : Str} (h1 : Contains line search1 = true) :
    rewriteLine line = replace1 := by
  simp [rewriteLine, h1]

/-- Content holding neither search string is left as it is. -/
theorem rewrite_of_not_Contains {x : Str} (h1 : Contains x search1 = false)
    (h2 : Contains x search2 = false) : rewrite x = x := by
  rw [rewrite_eq]
  have hmap : (Split x newline).map rewriteLine = Split x newline := by
    conv_rhs => rw [← List.map_id (Split x newline)]
    apply List.map_congr_left
    intro l hl
    exact rewriteLine_of_not_Contains
      (Contains_false_of_part (infix_of_mem_Split hl) h1)
      (Contains_false_of_part (infix_of_mem_Split hl) h2)
  rw [hmap, Join_Split]

/-- A single line is rewritten by `rewriteLine`. -/
theorem rewrite_of_newline_free {line : Str} (h : newline ∉ line) : rewrite line = rewriteLine line := by
  rw [rewrite_eq, Split_of_not_mem h]
  rfl

theorem rewrite_nil : rewrite [] = [] := by
  rw [rewrite_of_newline_free (by simp), rewriteLine_nil]

/-- The rewrite acts on the two sides of a newline separately. -/
theorem rewrite_append (a b : Str) :
    rewrite (a ++ newline :: b) = rewrite a ++ newline :: rewrite b := by
  rw [rewrite_eq, rewrite_eq, rewrite_eq, Split_append, List.map_append,
    Join_append (by simpa using Split_ne_nil a newline) (by simpa using Split_ne_nil b newline)]
  simp

/-- The rewrite of a join of contents is the join of their rewrites. -/
theorem rewrite_Join (ls : List Str) :
    rewrite (Join ls [newline]) = Join (ls.map rewrite) [newline] := by
  induction ls with
  | nil => exact rewrite_nil
  | cons a ls ih =>
    cases ls with
    | nil => rfl
    | cons b rest =>
      rw [Join_cons_cons, List.append_assoc, List.singleton_append, rewrite_append, ih]
      simp [Join]

theorem getElem?_Split_rewrite (x : Str) (i : Nat) :
    (Split (rewrite x) newline)[i]? = ((Split x newline)[i]?).map rewriteLine := by
  rw [Split_rewrite, List.getElem?_map]

set_option maxRecDepth 100000 in
theorem replace1_ne_replace2 : replace1 ≠ replace2 := by decide

/-! ## The line-by-line contract -/

/-- C1: the rewritten content has as many lines as the input, and its line
`i` is `replace1` when the input's line `i` contains `search1`, otherwise
`replace2` when that line contains `search2`, otherwise the input's line `i`. -/
theorem rewrite_lines (x : Str) :
    (Split (rewrite x) newline).length = (Split x newline).length ∧
    ∀ (i : Nat) (line : Str), (Split x newline)[i]? = some line →
      (Split (rewrite x) newline)[i]? =
        some (if Contains line search1 = true then replace1
              else if Contains line search2 = true then replace2
              else line) := by
  refine ⟨by rw [Split_rewrite, List.length_map], ?_⟩
  intro i line h
  rw [getElem?_Split_rewrite, h]
  rfl

set_option maxRecDepth 100000 in
/-- C1 at the sample lock file: its line 1 holds `search1` and becomes `replace1`. -/
theorem rewrite_lines_witness :
    (Split sampleLock newline)[1]? = some sampleLine ∧
    (Split (rewrite sampleLock) newline).length = 4 ∧
    (Split (rewrite sampleLock) newline)[1]? = some replace1 := by
  have h := rewrite_lines sampleLock
  have hline : (Split sampleLock newline)[1]? = some sampleLine := by decide
  refine ⟨hline, ?_, ?_⟩
  · rw [h.1]; decide
  · rw [h.2 1 sampleLine hline,
      if_pos (show Contains sampleLine search1 = true from Contains_append _ _ _)]

/-- C2: content that contains neither search string is rewritten to itself. -/
theorem rewrite_no_match (x : Str) (h1 : Contains x search1 = false)
    (h2 : Contains x search2 = false) : rewrite x = x :=
  rewrite_of_not_Contains h1 h2

set_option maxRecDepth 100000 in
/-- C2 at a three-line content without either search string. -/
theorem rewrite_no_match_witness :
    Contains (bytes "%\x7b\n  \"ex_abi\": 1,\n\x7d\n") search1 = false ∧
    Contains (bytes "%\x7b\n  \"ex_abi\": 1,\n\x7d\n") search2 = false ∧
    rewrite (bytes "%\x7b\n  \"ex_abi\": 1,\n\x7d\n") = bytes "%\x7b\n  \"ex_abi\": 1,\n\x7d\n" :=
  ⟨by decide, by decide, rewrite_no_match _ (by decide) (by decide)⟩

/-- C3: a single line that contains both search strings is rewritten to
`replace1`, and not to `replace2`. -/
theorem rewrite_both_match (line : Str) (hnl : newline ∉ line)
    (h1 : Contains line search1 = true) (_h2 : Contains line search2 = true) :
    rewrite line = replace1 ∧ rewrite line ≠ replace2 := by
  have h : rewrite line = replace1 := by
    rw [rewrite_of_newline_free hnl, rewriteLine_of_Contains_search1 h1]
  exact ⟨h, by rw [h]; exact replace1_ne_replace2⟩

set_option maxRecDepth 100000 in
/-- C3 at the line holding `search2`, a space, then `search1`. -/
theorem rewrite_both_match_witness :
    newline ∉ search2 ++ bytes " " ++ search1 ∧
    Contains (search2 ++ bytes " " ++ search1) search1 = true ∧
    Contains (search2 ++ bytes " " ++ search1) search2 = true ∧
    rewrite (search2 ++ bytes " " ++ search1) = replace1 :=
  ⟨by decide, by decide, by decide,
    (rewrite_both_match (search2 ++ bytes " " ++ search1) (by decide) (by decide)
      (by decide)).1⟩

/-- C4: a line `p ++ search1 ++ s` between lines that contain neither search
string is rewritten to `replace1`, whatever `p` and `s` are, and the lines
before and after it are kept. -/
theorem rewrite_substring_line (before after : List Str) (p s : Str)
    (hp : newline ∉ p) (hs : newline ∉ s)
    (hb : ∀ l ∈ before, Contains l search1 = false ∧ Contains l search2 = false)
    (ha : ∀ l ∈ after, Contains l search1 = false ∧ Contains l search2 = false) :
    rewrite (Join (before ++ [p ++ search1 ++ s] ++ after) [newline]) =
      Join (before ++ [replace1] ++ after) [newline] := by
  have hline : newline ∉ p ++ search1 ++ s := by
    simp only [List.mem_append, not_or]
    exact ⟨⟨hp, newline_not_mem_search1⟩, hs⟩
  have hkeep : ∀ ls : List Str,
      (∀ l ∈ ls, Contains l search1 = false ∧ Contains l search2 = false) →
      ls.map rewrite = ls := by
    intro ls hls
    conv_rhs => rw [← List.map_id ls]
    apply List.map_congr_left
    intro l hl
    exact rewrite_of_not_Contains (hls l hl).1 (hls l hl).2
  rw [rewrite_Join, List.map_append, List.map_append, hkeep before hb, hkeep after ha,
    List.map_singleton, rewrite_of_newline_free hline,
    rewriteLine_of_Contains_search1 (Contains_append p search1 s)]

set_option maxRecDepth 100000 in
/-- C4 at the specification's example: `search1` after two spaces, between
unrelated lines. -/
theorem rewrite_substring_line_witness :
    rewrite sampleLock = Join ([bytes "%\x7b"] ++ [replace1] ++ [bytes "\x7d", []]) [newline] :=
  rewrite_substring_line [bytes "%\x7b"] [bytes "\x7d", []] (bytes "  ") []
    (by decide) (by decide) (by decide) (by decide)

/-- The lines of the rewrite of a file given as its sequence of lines. -/
theorem Split_rewrite_Join {lines : List Str} (hne : lines ≠ [])
    (hl : ∀ l ∈ lines, newline ∉ l) :
    Split (rewrite (Join lines [newline])) newline = lines.map rewriteLine := by
  rw [Split_rewrite, Split_Join hne hl]

set_option maxRecDepth 100000 in
/-- C5 as stated fails: in the two-line file `search1`, `search2` line 0 is
exactly `search1`, yet line 1 is rewritten to `replace2` and so differs from
the input's line 1. -/
theorem rewrite_exact_line_counterexample :
    (∀ l ∈ [search1, search2], newline ∉ l) ∧
    [search1, search2][0]? = some search1 ∧
    (Split (rewrite (Join [search1, search2] [newline])) newline)[1]? = some replace2 ∧
    (Split (rewrite (Join [search1, search2] [newline])) newline)[1]? ≠
      [search1, search2][1]? := by
  have hl : ∀ l ∈ [search1, search2], newline ∉ l := by
    intro l hl
    simp only [List.mem_cons, List.mem_singleton, List.not_mem_nil, or_false] at hl
    rcases hl with rfl | rfl
    · exact newline_not_mem_search1
    · exact newline_not_mem_search2
  have h2 : rewriteLine search2 = replace2 := by
    have hc1 : Contains search2 search1 = false := by decide
    simp [rewriteLine, hc1, Contains_self]
  have hne : replace2 ≠ search2 := by decide
  rw [Split_rewrite_Join (by simp) hl]
  refine ⟨hl, rfl, ?_, ?_⟩
  · simp [h2]
  · simp [h2, hne]

/-- C5, amended: in a file whose line `i` is exactly `search1`, the rewritten
file has the same number of lines, its line `i` is `replace1`, and every other
line that contains neither search string is the input's line. -/
theorem rewrite_exact_line (lines : List Str) (i : Nat)
    (hl : ∀ l ∈ lines, newline ∉ l) (hi : lines[i]? = some search1) :
    (Split (rewrite (Join lines [newline])) newline).length = lines.length ∧
    (Split (rewrite (Join lines [newline])) newline)[i]? = some replace1 ∧
    ∀ (j : Nat) (line : Str), j ≠ i → lines[j]? = some line →
      Contains line search1 = false → Contains line search2 = false →
      (Split (rewrite (Join lines [newline])) newline)[j]? = some line := by
  have hne : lines ≠ [] := by
    intro h
    rw [h] at hi
    simp at hi
  rw [Split_rewrite_Join hne hl]
  refine ⟨List.length_map _ _, ?_, ?_⟩
  · rw [List.getElem?_map, hi, Option.map_some',
      rewriteLine_of_Contains_search1 (Contains_self search1)]
  · intro j line _ hj h1 h2
    rw [List.getElem?_map, hj, Option.map_some', rewriteLine_of_not_Contains h1 h2]

set_option maxRecDepth 100000 in
/-- C5, amended, at a three-line file whose middle line is `search1`. -/
theorem rewrite_exact_line_witness :
    (Split (rewrite (Join [bytes "%\x7b", search1, bytes "\x7d"] [newline])) newline) =
      [bytes "%\x7b", replace1, bytes "\x7d"] := by
  have h := rewrite_exact_line [bytes "%\x7b", search1, bytes "\x7d"] 1 (by decide) rfl
  have h0 := h.2.2 0 (bytes "%\x7b") (by decide) rfl (by decide) (by decide)
  have h2 := h.2.2 2 (bytes "\x7d") (by decide) rfl (by decide) (by decide)
  apply List.ext_getElem?
  intro n
  match n with
  | 0 => rw [h0]; rfl
  | 1 => rw [h.2.1]; rfl
  | 2 => rw [h2]; rfl
  | n + 3 =>
    rw [List.getElem?_eq_none (by rw [h.1]; simp), List.getElem?_eq_none (by simp)]

/-- C6: joining the lines of any content with newlines gives the content back. -/
theorem join_split_roundtrip (x : Str) : Join (Split x newline) [newline] = x :=
  Join_Split x newline

/-- C7: content ending in a newline is rewritten to content ending in a
newline, and the last line of the rewritten content is empty. -/
theorem rewrite_trailing_newline (x : Str) (h : [newline] <:+ x) :
    [newline] <:+ rewrite x ∧ (Split (rewrite x) newline).getLast? = some [] := by
  obtain ⟨y, rfl⟩ := h
  have hr : rewrite (y ++ [newline]) = rewrite y ++ [newline] := by
    have h0 := rewrite_append y []
    rw [rewrite_nil] at h0
    exact h0
  refine ⟨⟨rewrite y, hr.symm⟩, ?_⟩
  rw [hr]
  have hs : Split (rewrite y ++ [newline]) newline = Split (rewrite y) newline ++ [[]] :=
    Split_append (rewrite y) [] newline
  rw [hs, List.getLast?_append]
  rfl

set_option maxRecDepth 100000 in
/-- C7 at the sample lock file, one of whose lines is replaced. -/
theorem rewrite_trailing_newline_witness :
    [newline] <:+ sampleLock ∧ [newline] <:+ rewrite sampleLock ∧
    (Split (rewrite sampleLock) newline).getLast? = some [] :=
  have hx : [newline] <:+ sampleLock := by decide
  ⟨hx, (rewrite_trailing_newline sampleLock hx).1, (rewrite_trailing_newline sampleLock hx).2⟩

/-- C8: the empty content splits into one empty line and is rewritten to the
empty content. -/
theorem rewrite_empty : Split [] newline = [[]] ∧ rewrite [] = [] :=
  ⟨rfl, rewrite_nil⟩

/-! ## The run on a file system -/

theorem main_of_read_error {fs : FS} {e : IOError} (h : ReadFile fs "mix.lock" = .error e) :
    main fs = Fatalln fs [.read "mix.lock"] e := by
  unfold main
  rw [h]

theorem main_of_read_ok {fs : FS} {input : Str} (h : ReadFile fs "mix.lock" = .ok input) :
    main fs =
      match WriteFile fs "mix.lock" (rewrite input) 0o644 with
      | (fs', some err) =>
        Fatalln fs' [.read "mix.lock", .write "mix.lock" (rewrite input) 0o644] err
      | (fs', none) =>
        { fs := fs', calls := [.read "mix.lock", .write "mix.lock" (rewrite input) 0o644],
          stderr := [], exitCode := 0 } := by
  unfold main
  rw [h]
  rfl

/-- C9: when reading `mix.lock` fails, the run logs that error and exits with
status 1, its only I/O call is the read, and the file system is left as it was. -/
theorem main_read_failure (fs : FS) (e : IOError) (h : ReadFile fs "mix.lock" = .error e) :
    (main fs).fs = fs ∧ (main fs).calls = [.read "mix.lock"] ∧
    (main fs).stderr = [e] ∧ (main fs).exitCode = 1 := by
  rw [main_of_read_error h]
  exact ⟨rfl, rfl, rfl, rfl⟩

/-- C9 on the file system without `mix.lock`. -/
theorem main_read_failure_witness :
    ReadFile emptyFS "mix.lock" = .error .notExist ∧
    (main emptyFS).fs = emptyFS ∧ (main emptyFS).calls = [.read "mix.lock"] ∧
    (main emptyFS).stderr = [.notExist] ∧ (main emptyFS).exitCode = 1 :=
  ⟨rfl, main_read_failure emptyFS .notExist rfl⟩

/-- C10: the run exits with a nonzero status exactly when the read of
`mix.lock` fails or the write of the rewritten content fails; whatever
content is read, the run succeeds when the write succeeds. -/
theorem main_fails_iff (fs : FS) :
    ((main fs).exitCode ≠ 0 ↔
      (∃ e, ReadFile fs "mix.lock" = .error e) ∨
      (∃ input e, ReadFile fs "mix.lock" = .ok input ∧
        (WriteFile fs "mix.lock" (rewrite input) 0o644).2 = some e)) ∧
    (∀ input, ReadFile fs "mix.lock" = .ok input →
      (WriteFile fs "mix.lock" (rewrite input) 0o644).2 = none →
      (main fs).exitCode = 0 ∧ (main fs).stderr = []) := by
  cases hr : ReadFile fs "mix.lock" with
  | error e =>
    rw [main_of_read_error hr]
    refine ⟨⟨fun _ => Or.inl ⟨e, rfl⟩, fun _ => by simp [Fatalln]⟩, ?_⟩
    intro input h
    cases h
  | ok input =>
    rw [main_of_read_ok hr]
    rcases hw : WriteFile fs "mix.lock" (rewrite input) 0o644 with ⟨fs', _ | err⟩
    · refine ⟨⟨fun h => absurd rfl h, ?_⟩, fun _ _ _ => ⟨rfl, rfl⟩⟩
      rintro (⟨e, he⟩ | ⟨input', e, hi, he⟩)
      · cases he
      · cases hi
        rw [hw] at he
        cases he
    · refine ⟨⟨fun _ => Or.inr ⟨input, err, rfl, by rw [hw]⟩, fun _ => by simp [Fatalln]⟩, ?_⟩
      intro input' hi he
      cases hi
      rw [hw] at he
      cases he

set_option maxRecDepth 100000 in
/-- C10 on three file systems holding the sample lock file: readable and
writable (the run succeeds), read-only (the write fails), and too small for
the rewritten content (the write fails). -/
theorem main_fails_iff_witness :
    (main (lockFS sampleLock true true 100000)).exitCode = 0 ∧
    (main (lockFS sampleLock true false 100000)).exitCode ≠ 0 ∧
    (main (lockFS sampleLock true true 100)).exitCode ≠ 0 ∧
    (main (lockFS sampleLock false true 100000)).exitCode ≠ 0 := by
  refine ⟨((main_fails_iff (lockFS sampleLock true true 100000)).2 sampleLock rfl
    (by decide)).1, ?_, ?_, ?_⟩
  · exact (main_fails_iff (lockFS sampleLock true false 100000)).1.2
      (Or.inr ⟨sampleLock, .permission, rfl, by decide⟩)
  · exact (main_fails_iff (lockFS sampleLock true true 100)).1.2
      (Or.inr ⟨sampleLock, .noSpace, rfl, by decide⟩)
  · exact (main_fails_iff (lockFS sampleLock false true 100000)).1.2
      (Or.inl ⟨.permission, rfl⟩)

theorem ReadFile_of_readable {fs : FS} {name : String} {i : Nat}
    (hn : fs.names name = some i) (hr : (fs.files i).readable = true) :
    ReadFile fs name = .ok (fs.files i).content := by
  simp [ReadFile, hn, hr]

theorem ReadFile_of_not_readable {fs : FS} {name : String} {i : Nat}
    (hn : fs.names name = some i) (hr : (fs.files i).readable = false) :
    ReadFile fs name = .error .permission := by
  simp [ReadFile, hn, hr]

theorem ReadFile_of_missing {fs : FS} {name : String} (hn : fs.names name = none) :
    ReadFile fs name = .error .notExist := by
  simp [ReadFile, hn]

/-- A write through a path that names a file succeeds only by storing the
whole data in that file. -/
theorem WriteFile_existing {fs : FS} {name : String} {i : Nat} (data : Str) (perm : Nat)
    (hn : fs.names name = some i) :
    WriteFile fs name data perm = (fs.put i { fs.files i with content := data }, none) ∨
    ∃ fs' e, WriteFile fs name data perm = (fs', some e) := by
  unfold WriteFile
  rw [hn]
  dsimp only
  split_ifs
  · exact Or.inl rfl
  · exact Or.inr ⟨_, _, rfl⟩
  · exact Or.inr ⟨_, _, rfl⟩

/-- What a run that exits with status 0 did: it read the file that `mix.lock`
names and stored the rewriting of its content in that same file. -/
theorem main_of_success {fs : FS} (h : (main fs).exitCode = 0) :
    ∃ i, fs.names "mix.lock" = some i ∧
      main fs =
        { fs := fs.put i { fs.files i with content := rewrite (fs.files i).content },
          calls := [.read "mix.lock",
            .write "mix.lock" (rewrite (fs.files i).content) 0o644],
          stderr := [], exitCode := 0 } := by
  cases hn : fs.names "mix.lock" with
  | none =>
    rw [main_of_read_error (ReadFile_of_missing hn)] at h
    simp [Fatalln] at h
  | some i =>
    cases hr : (fs.files i).readable with
    | false =>
      rw [main_of_read_error (ReadFile_of_not_readable hn hr)] at h
      simp [Fatalln] at h
    | true =>
      have hm := main_of_read_ok (ReadFile_of_readable hn hr)
      rcases WriteFile_existing (rewrite (fs.files i).content) 0o644 hn with
        hw | ⟨fs', e, hw⟩
      · rw [hw] at hm
        exact ⟨i, rfl, hm⟩
      · rw [hw] at hm
        rw [hm] at h
        simp [Fatalln] at h

set_option maxRecDepth 100000 in
/-- C11 as stated fails: in `linkedFS` the path `other.lock` names the same
file as `mix.lock`; the run exits with status 0, and the content at
`other.lock`, the sample lock file before the run, is its rewriting after the
run, which differs from it. -/
theorem main_success_frame_counterexample :
    (main linkedFS).exitCode = 0 ∧
    "other.lock" ≠ "mix.lock" ∧
    linkedFS.content "other.lock" = some sampleLock ∧
    (main linkedFS).fs.content "other.lock" = some (rewrite sampleLock) ∧
    (main linkedFS).fs.content "other.lock" ≠ linkedFS.content "other.lock" := by
  have h0 : (main linkedFS).exitCode = 0 := by decide
  obtain ⟨i, hi, hm⟩ := main_of_success h0
  have hi0 : i = 0 := by
    have h1 : linkedFS.names "mix.lock" = some 0 := by decide
    rw [h1] at hi
    exact (Option.some.inj hi).symm
  subst hi0
  have hne : rewrite sampleLock ≠ sampleLock := by decide
  have hafter : (main linkedFS).fs.content "other.lock" = some (rewrite sampleLock) := by
    rw [hm]
    rfl
  have hbefore : linkedFS.content "other.lock" = some sampleLock := rfl
  refine ⟨h0, by decide, hbefore, hafter, ?_⟩
  rw [hafter, hbefore]
  exact fun h => hne (Option.some.inj h)

/-- C11, amended: after a run that exits with status 0, the content at
`mix.lock` is the rewriting of its old content, the content at every path that
does not name the same file as `mix.lock` is unchanged, and the I/O calls made
are the read of `mix.lock` and the write of the rewritten content to
`mix.lock`. -/
theorem main_success_effect (fs : FS) (h : (main fs).exitCode = 0) :
    ∃ old, fs.content "mix.lock" = some old ∧
      (main fs).fs.content "mix.lock" = some (rewrite old) ∧
      (∀ p, fs.names p ≠ fs.names "mix.lock" → (main fs).fs.content p = fs.content p) ∧
      (main fs).calls = [.read "mix.lock", .write "mix.lock" (rewrite old) 0o644] := by
  obtain ⟨i, hi, hm⟩ := main_of_success h
  refine ⟨(fs.files i).content, ?_, ?_, ?_, ?_⟩
  · simp [FS.content, hi]
  · rw [hm]
    simp [FS.content, FS.put, hi]
  · intro p hp
    rw [hm]
    rw [hi] at hp
    cases hq : fs.names p with
    | none => simp [FS.content, FS.put, hq]
    | some j =>
      have hj : j ≠ i := fun e => hp (by rw [hq, e])
      simp [FS.content, FS.put, hq, hj]
  · rw [hm]

set_option maxRecDepth 100000 in
/-- C11, amended, on `linkedFS`: the run exits with status 0, `mix.lock`
holds the rewritten sample lock file, and `mix.exs`, which names another
file, holds what it held. -/
theorem main_success_effect_witness :
    (main linkedFS).exitCode = 0 ∧
    linkedFS.names "mix.exs" ≠ linkedFS.names "mix.lock" ∧
    (main linkedFS).fs.content "mix.lock" = some (rewrite sampleLock) ∧
    (main linkedFS).fs.content "mix.exs" = some (bytes "defmodule") ∧
    (main linkedFS).calls =
      [.read "mix.lock", .write "mix.lock" (rewrite sampleLock) 0o644] := by
  have h0 : (main linkedFS).exitCode = 0 := by decide
  have hn : linkedFS.names "mix.exs" ≠ linkedFS.names "mix.lock" := by decide
  obtain ⟨old, hold, hlock, hframe, hcalls⟩ := main_success_effect linkedFS h0
  have ho : old = sampleLock := by
    have h1 : linkedFS.content "mix.lock" = some sampleLock := rfl
    rw [h1] at hold
    exact (Option.some.inj hold).symm
  subst ho
  refine ⟨h0, hn, hlock, ?_, hcalls⟩
  rw [hframe "mix.exs" hn]
  rfl

/-! ## Lines that match both rules -/

/-- When `b` starts inside `a` (at the offset `c.length`) and what follows `a`
is shorter than `b`, either `b` lies within `a` or a non-empty end of `a` is a
beginning of `b`. -/
theorem overlap_of_append_eq {a b c q1 q2 : Str} (h : a ++ q1 = c ++ (b ++ q2))
    (hlen : q1.length < b.length) :
    b <:+: a ∨ ∃ e, e ≠ [] ∧ e <:+ a ∧ e <+: b := by
  rcases List.append_eq_append_iff.1 h with ⟨e, hc, hq⟩ | ⟨e, ha, hq⟩
  · have hl := congrArg List.length hq
    simp only [List.length_append] at hl
    omega
  · rcases List.append_eq_append_iff.1 hq with ⟨g, he, _⟩ | ⟨g, hb, hq1⟩
    · left
      exact ⟨c, g, by rw [ha, he]; simp⟩
    · right
      refine ⟨e, ?_, ⟨c, ha.symm⟩, ⟨g, hb.symm⟩⟩
      intro hnil
      subst hnil
      have hl := congrArg List.length hq1
      have hl2 := congrArg List.length hb
      simp only [List.length_append, List.length_nil] at hl hl2
      omega

/-- Two parts of a string that is shorter than the two together overlap: one
lies within the other, or a non-empty end of one is a beginning of the other. -/
theorem overlap_of_parts {a b l : Str} (ha : a <:+: l) (hb : b <:+: l)
    (hlen : l.length < a.length + b.length) :
    (b <:+: a ∨ ∃ e, e ≠ [] ∧ e <:+ a ∧ e <+: b) ∨
    (a <:+: b ∨ ∃ e, e ≠ [] ∧ e <:+ b ∧ e <+: a) := by
  obtain ⟨p1, q1, h1⟩ := ha
  obtain ⟨p2, q2, h2⟩ := hb
  have hl1 := congrArg List.length h1
  have hl2 := congrArg List.length h2
  simp only [List.length_append] at hl1 hl2
  have h : p1 ++ (a ++ q1) = p2 ++ (b ++ q2) := by
    rw [← List.append_assoc, ← List.append_assoc, h1, h2]
  rcases List.append_eq_append_iff.1 h with ⟨c, _, hq⟩ | ⟨c, _, hq⟩
  · exact Or.inl (overlap_of_append_eq hq (by omega))
  · exact Or.inr (overlap_of_append_eq hq (by omega))

set_option maxRecDepth 1000000 in
theorem search1_end_not_search2_start :
    ∀ d, d < search1.length → HasPrefix search2 (search1.drop d) = false := by decide

set_option maxRecDepth 1000000 in
theorem search2_end_not_search1_start :
    ∀ d, d < search2.length → HasPrefix search1 (search2.drop d) = false := by decide

set_option maxRecDepth 100000 in
theorem search1_not_Contains_search2 : Contains search1 search2 = false := by decide

set_option maxRecDepth 100000 in
theorem search2_not_Contains_search1 : Contains search2 search1 = false := by decide

/-- No non-empty end of `a` is a beginning of `b`, given the check at every
offset of `a`. -/
theorem no_overlap_of_check {a b : Str}
    (hck : ∀ d, d < a.length → HasPrefix b (a.drop d) = false) :
    ¬ ∃ e, e ≠ [] ∧ e <:+ a ∧ e <+: b := by
  rintro ⟨e, hne, hsuf, hpre⟩
  have hlen : 0 < e.length := List.length_pos.2 hne
  have hle : e.length ≤ a.length := hsuf.length_le
  have hd := hck (a.length - e.length) (by omega)
  rw [← List.suffix_iff_eq_drop.1 hsuf, (HasPrefix_iff b e).2 hpre] at hd
  cases hd

set_option maxRecDepth 100000 in
/-- C12 as stated fails: the newline-free line `search1 ++ search2` contains
both search strings. -/
theorem no_double_match_counterexample :
    newline ∉ search1 ++ search2 ∧
    Contains (search1 ++ search2) search1 = true ∧
    Contains (search1 ++ search2) search2 = true :=
  ⟨by decide, by decide, by decide⟩

/-- C12, amended: a line shorter than the two search strings together (699
bytes) does not contain both of them. -/
theorem no_double_match_short (line : Str)
    (h : line.length < search1.length + search2.length) :
    ¬ (Contains line search1 = true ∧ Contains line search2 = true) := by
  rintro ⟨h1, h2⟩
  rcases overlap_of_parts ((Contains_iff _ _).1 h1) ((Contains_iff _ _).1 h2) h with
    (h21 | ho) | (h12 | ho)
  · have hc := search1_not_Contains_search2
    rw [(Contains_iff _ _).2 h21] at hc
    cases hc
  · exact no_overlap_of_check search1_end_not_search2_start ho
  · have hc := search2_not_Contains_search1
    rw [(Contains_iff _ _).2 h12] at hc
    cases hc
  · exact no_overlap_of_check search2_end_not_search1_start ho

set_option maxRecDepth 100000 in
/-- C12, amended, at the sample line, which contains `search1` only. -/
theorem no_double_match_short_witness :
    sampleLine.length < search1.length + search2.length ∧
    Contains sampleLine search1 = true ∧ Contains sampleLine search2 = false :=
  have hb := no_double_match_short sampleLine (by decide)
  have h1 : Contains sampleLine search1 = true := by decide
  ⟨by decide, h1, by
    cases h2 : Contains sampleLine search2 with
    | false => rfl
    | true => exact absurd ⟨h1, h2⟩ hb⟩

/-! ## A second run, and what a run leaves behind -/

set_option maxRecDepth 100000 in
theorem replace1_not_Contains_search1 : Contains replace1 search1 = false := by decide

set_option maxRecDepth 100000 in
theorem replace1_not_Contains_search2 : Contains replace1 search2 = false := by decide

set_option maxRecDepth 100000 in
theorem replace2_not_Contains_search1 : Contains replace2 search1 = false := by decide

set_option maxRecDepth 100000 in
theorem replace2_not_Contains_search2 : Contains replace2 search2 = false := by decide

/-- A rewritten line contains neither search string. -/
theorem rewriteLine_not_Contains (line : Str) :
    Contains (rewriteLine line) search1 = false ∧
    Contains (rewriteLine line) search2 = false := by
  unfold rewriteLine
  cases h1 : Contains line search1 with
  | true =>
    simp only [if_true]
    exact ⟨replace1_not_Contains_search1, replace1_not_Contains_search2⟩
  | false =>
    cases h2 : Contains line search2 with
    | true =>
      simp only [Bool.false_eq_true, if_false, if_true]
      exact ⟨replace2_not_Contains_search1, replace2_not_Contains_search2⟩
    | false =>
      simp only [Bool.false_eq_true, if_false]
      exact ⟨h1, h2⟩

theorem rewriteLine_rewriteLine (line : Str) :
    rewriteLine (rewriteLine line) = rewriteLine line :=
  rewriteLine_of_not_Contains (rewriteLine_not_Contains line).1
    (rewriteLine_not_Contains line).2

/-- A separator-free part of `a ++ sep ++ b` lies within `a` or within `b`. -/
theorem part_of_append_sep {s a b : Str} {sep : Byte} (hs : sep ∉ s)
    (h : s <:+: a ++ sep :: b) : s <:+: a ∨ s <:+: b := by
  obtain ⟨p, q, hpq⟩ := h
  have h0 : p ++ (s ++ q) = a ++ sep :: b := by rw [← List.append_assoc, hpq]
  rcases List.append_eq_append_iff.1 h0 with ⟨c, ha, hsq⟩ | ⟨c, hp, hb⟩
  · rcases List.append_eq_append_iff.1 hsq with ⟨e, hc, _⟩ | ⟨e, hse, hb⟩
    · exact Or.inl ⟨p, e, by rw [ha, hc]; simp⟩
    · cases e with
      | nil =>
        rw [List.append_nil] at hse
        exact Or.inl ⟨p, [], by rw [ha, hse]; simp⟩
      | cons x e =>
        rw [List.cons_append] at hb
        injection hb with hx he
        exact absurd (by rw [hse, hx]; simp) hs
  · cases c with
    | nil =>
      rw [List.nil_append] at hb
      cases s with
      | nil => exact Or.inl List.nil_infix
      | cons x s =>
        rw [List.cons_append] at hb
        injection hb with hx he
        exact absurd (by rw [hx]; simp) hs
    | cons x c =>
      rw [List.cons_append] at hb
      injection hb with hx he
      exact Or.inr ⟨c, q, by rw [he]; simp⟩

/-- A separator-free part of a join lies within one of the joined lines. -/
theorem part_of_Join {s : Str} {sep : Byte} (hs : sep ∉ s) {ls : List Str} (hne : ls ≠ [])
    (h : s <:+: Join ls [sep]) : ∃ l ∈ ls, s <:+: l := by
  induction ls with
  | nil => exact absurd rfl hne
  | cons a ls ih =>
    cases ls with
    | nil => exact ⟨a, List.mem_cons_self _ _, h⟩
    | cons b rest =>
      rw [Join_cons_cons, List.append_assoc, List.singleton_append] at h
      rcases part_of_append_sep hs h with ha | hr
      · exact ⟨a, List.mem_cons_self _ _, ha⟩
      · obtain ⟨l, hl, hsl⟩ := ih (by simp) hr
        exact ⟨l, List.mem_cons_of_mem _ hl, hsl⟩

/-- A newline-free string that no rewritten line contains is not contained in
the rewritten content. -/
theorem rewrite_not_Contains {s : Str} (hs : newline ∉ s)
    (hline : ∀ line, Contains (rewriteLine line) s = false) (x : Str) :
    Contains (rewrite x) s = false := by
  rw [Contains_false_iff, rewrite_eq]
  intro h
  obtain ⟨l, hl, hsl⟩ := part_of_Join hs (by simpa using Split_ne_nil x newline) h
  obtain ⟨l0, _, rfl⟩ := List.mem_map.1 hl
  have hc := hline l0
  rw [(Contains_iff _ _).2 hsl] at hc
  cases hc

/-- C13: rewriting is idempotent: rewriting the rewritten content changes
nothing. -/
theorem rewrite_idempotent (x : Str) : rewrite (rewrite x) = rewrite x := by
  rw [rewrite_eq (rewrite x), Split_rewrite, List.map_map]
  have hcomp : rewriteLine ∘ rewriteLine = rewriteLine := by
    funext line
    exact rewriteLine_rewriteLine line
  rw [hcomp, ← rewrite_eq]

/-- C14: the rewritten content contains neither search string, neither within
a line nor across a line boundary. -/
theorem rewrite_no_search_left (x : Str) :
    Contains (rewrite x) search1 = false ∧ Contains (rewrite x) search2 = false :=
  ⟨rewrite_not_Contains newline_not_mem_search1 (fun l => (rewriteLine_not_Contains l).1) x,
    rewrite_not_Contains newline_not_mem_search2 (fun l => (rewriteLine_not_Contains l).2) x⟩

/-- C15: the rewrite acts on the two sides of a newline independently: the
rewriting of `a`, a newline, then `b` is the rewriting of `a`, a newline, then
the rewriting of `b`. -/
theorem rewrite_independent (a b : Str) :
    rewrite (a ++ [newline] ++ b) = rewrite a ++ [newline] ++ rewrite b := by
  rw [List.append_assoc, List.singleton_append, rewrite_append, List.append_assoc,
    List.singleton_append]

end Mixfix
